import Mathlib

/-!
Verification of the lazy value-binding mechanism of `log/value.go` and the
in-memory voyage repository of `examples/shipping/inmem/voyageRepository.go`.

Embedding choices for `log/value.go`:

* A slot of the Go `[]interface{}` key-value sequence holds either an
  arbitrary static value or a `Valuer` (`func() interface{}`).  We model a
  slot as an inductive `Slot α ε`: `static a` for any non-`Valuer` dynamic
  type, and `valuer f` for a value whose dynamic type is exactly `Valuer`
  (Go type assertion `keyvals[i].(Valuer)` succeeds only on that dynamic
  type).  Invoking a `Valuer` yields another `interface{}` value, hence
  another `Slot` - in particular a `Valuer` may return another `Valuer`.
  A `Valuer` may also panic; a panic is modelled as `Except.error e` with
  `e : ε`, so a `Valuer` is a function `Unit → Except ε (Slot α ε)`.

* Go's `bindValues` mutates the slice in place and returns nothing; a panic
  of an invoked `Valuer` propagates and leaves the mutations performed so
  far in place.  The embedding passes the state explicitly: `bindValues`
  returns the final content of the slice, the (instrumentation) trace of
  indices at which a `Valuer` was invoked, in invocation order, and the
  propagated panic if one occurred (`none` on normal return).  The Go loop
  `for i := 1; i < len(keyvals); i += 2` visits exactly the odd indices in
  ascending order, i.e. the second element of each consecutive pair, which
  the list recursion below reproduces pair by pair (a trailing unpaired
  element is never visited, matching the loop bound).
-/

set_option genSizeOfSpec false in
/-- A slot of a key-value sequence: a Go `interface{}` value that is either
a static value of any non-`Valuer` dynamic type (`static`) or a `Valuer`
(`valuer`).  A `Valuer` takes no arguments and produces an `interface{}`
value (another `Slot`), or panics with an `ε` (modelled as `Except.error`). -/
inductive Slot (α : Type) (ε : Type) where
  | static : α → Slot α ε
  | valuer : (Unit → Except ε (Slot α ε)) → Slot α ε

/-- Go: `type Valuer func() interface{}` (with panics made explicit). -/
abbrev Valuer (α ε : Type) := Unit → Except ε (Slot α ε)

/-- The Go type assertion `keyvals[i].(Valuer)`: whether a slot's dynamic
type is `Valuer`. -/
def isValuerSlot {α ε : Type} : Slot α ε → Bool
  | .valuer _ => true
  | .static _ => false

/-- Result of `bindValues`: the final state of the slice, the indices at
which a `Valuer` was invoked in invocation order (instrumentation making
the side-effect order observable), and the propagated panic, if any. -/
structure BindResult (α ε : Type) where
  keyvals : List (Slot α ε)
  trace : List Nat
  err : Option ε

/-- Go `bindValues` (log/value.go:16-22): for `i := 1; i < len(keyvals);
i += 2`, if `keyvals[i]` is a `Valuer` `v` then `keyvals[i] = v()`.  The
loop handles the slice pair by pair; on a panic the failing slot keeps its
`Valuer` (the assignment never happens) and the rest is left untouched. -/
def bindValues {α ε : Type} : List (Slot α ε) → BindResult α ε
  | [] => ⟨[], [], none⟩
  | [k] => ⟨[k], [], none⟩
  | k :: .valuer f :: rest =>
    match f () with
    | .error e => ⟨k :: .valuer f :: rest, [1], some e⟩
    | .ok w =>
      let r := bindValues rest
      ⟨k :: w :: r.keyvals, 1 :: r.trace.map (· + 2), r.err⟩
  | k :: .static a :: rest =>
    let r := bindValues rest
    ⟨k :: .static a :: r.keyvals, r.trace.map (· + 2), r.err⟩

/-- Go `containsValuer` (log/value.go:26-33): scans odd indices in
ascending order, returns true at the first slot whose dynamic type is
`Valuer`, false if the loop finishes. -/
def containsValuer {α ε : Type} : List (Slot α ε) → Bool
  | _ :: .valuer _ :: _ => true
  | _ :: .static _ :: rest => containsValuer rest
  | _ => false

/-! ### Time formatting (`TimeFormat`, log/value.go:54-70)

`TimeFormat` pairs a captured instant with a layout.  The Go `time.Time`
methods used here are `Format` and `AppendFormat` from the standard
library, whose documented contract is: `Format layout` returns a string
determined by the instant and the layout, and `AppendFormat b layout`
appends exactly the bytes of that string to `b` (Go's `Format` is defined
as `AppendFormat` into a fresh buffer).  An instant is therefore modelled
by its formatting behavior: a pure function from layout to rendered text.
The byte slice `[]byte` is modelled as `List Char` (text content). -/

/-- Model of Go `time.Time` restricted to the formatting contract used by
`TimeFormat`: `fmt layout` is the text the instant renders to. -/
structure Time where
  fmt : String → String

/-- Go `time.Time.Format` (stdlib contract): render the instant with the
given layout. -/
def Time.Format (t : Time) (layout : String) : String := t.fmt layout

/-- Go `time.Time.AppendFormat` (stdlib contract): append exactly the text
of `Format layout` to the buffer `b`. -/
def Time.AppendFormat (t : Time) (b : List Char) (layout : String) : List Char :=
  b ++ (t.fmt layout).data

/-- Go `TimeFormat` (log/value.go:56-59): an instant and a layout used when
marshaling to a text format. -/
structure TimeFormat where
  Time : Time
  Layout : String

/-- Go `TimeFormat.String` (log/value.go:61-63), renamed `string` because
`String` is the Lean string type: `tf.Time.Format(tf.Layout)`. -/
def TimeFormat.string (tf : TimeFormat) : String :=
  Time.Format tf.Time tf.Layout

/-- Go `TimeFormat.MarshalText` (log/value.go:66-70): allocates a buffer
with capacity hint `len(tf.Layout)+10` (capacity carries no content; the
fresh buffer is empty), appends the formatted time, returns it with a nil
error. -/
def TimeFormat.MarshalText (tf : TimeFormat) : List Char × Option Unit :=
  let b : List Char := []
  let b := Time.AppendFormat tf.Time b tf.Layout
  (b, none)

/-! ### In-memory voyage repository
(`examples/shipping/inmem/voyageRepository.go`)

The `model/voyage` package (types `Number`, `Voyage`, the sentinel error
`ErrUnknown` and the named records) is not part of the fragment, so it is
modelled from the spec: `find(id Number) -> (*Record, error)` returns a
sentinel `ErrUnknown` error when the identifier is absent; construction
preloads a fixed, hardcoded set of named records.  A voyage number is an
identifier (a string); a record is identified by its number; record
pointers are modelled as the records themselves (all preloaded pointers
are non-nil `&Voyage{...}` values).  The Go map is modelled as a function
to `Option Voyage` (`none` = key absent), map assignment as pointwise
update. -/

/-- Modelled from the spec: `voyage.Number`, the voyage identifier. -/
abbrev Number := String

/-- Modelled from the spec: a named voyage record, identified by its
number. -/
structure Voyage where
  number : Number
deriving DecidableEq

/-- Modelled from the spec: the sentinel error `voyage.ErrUnknown`. -/
inductive VoyageError where
  | ErrUnknown
deriving DecidableEq

/-- Modelled from the spec: preloaded record `voyage.V100`. -/
def V100 : Voyage := ⟨"V100"⟩

/-- Modelled from the spec: preloaded record `voyage.V300`. -/
def V300 : Voyage := ⟨"V300"⟩

/-- Modelled from the spec: preloaded record `voyage.V400`. -/
def V400 : Voyage := ⟨"V400"⟩

/-- Modelled from the spec: preloaded record `voyage.V0100S`. -/
def V0100S : Voyage := ⟨"0100S"⟩

/-- Modelled from the spec: preloaded record `voyage.V0200T`. -/
def V0200T : Voyage := ⟨"0200T"⟩

/-- Modelled from the spec: preloaded record `voyage.V0300A`. -/
def V0300A : Voyage := ⟨"0300A"⟩

/-- Modelled from the spec: preloaded record `voyage.V0301S`. -/
def V0301S : Voyage := ⟨"0301S"⟩

/-- Modelled from the spec: preloaded record `voyage.V0400S`. -/
def V0400S : Voyage := ⟨"0400S"⟩

/-- Go `voyageRepository` (voyageRepository.go:5-7). -/
structure voyageRepository where
  voyages : Number → Option Voyage

/-- Go map assignment `m[k] = v` on the modelled map. -/
def mapInsert (m : Number → Option Voyage) (k : Number) (v : Voyage) :
    Number → Option Voyage :=
  fun n => if n = k then some v else m n

/-- Go `voyageRepository.Find` (voyageRepository.go:9-15): map lookup,
returning the record and nil error on a hit, nil and `ErrUnknown` on a
miss. -/
def voyageRepository.Find (r : voyageRepository) (voyageNumber : Number) :
    Option Voyage × Option VoyageError :=
  match r.voyages voyageNumber with
  | some v => (some v, none)
  | none => (none, some VoyageError.ErrUnknown)

/-- Go `NewVoyageRepository` (voyageRepository.go:18-34): starts from an
empty map and inserts the eight named records in source order. -/
def NewVoyageRepository : voyageRepository :=
  let m := fun _ : Number => (none : Option Voyage)
  let m := mapInsert m V100.number V100
  let m := mapInsert m V300.number V300
  let m := mapInsert m V400.number V400
  let m := mapInsert m V0100S.number V0100S
  let m := mapInsert m V0200T.number V0200T
  let m := mapInsert m V0300A.number V0300A
  let m := mapInsert m V0301S.number V0301S
  let m := mapInsert m V0400S.number V0400S
  ⟨m⟩

/-- The records preloaded by `NewVoyageRepository`, in insertion order. -/
def preloadedVoyages : List Voyage :=
  [V100, V300, V400, V0100S, V0200T, V0300A, V0301S, V0400S]

/-! ### Concrete inputs used by witnesses and counterexamples -/

/-- Whether an optional slot (a `kv[j]?` lookup) holds a `Valuer`. -/
def isValuerOpt {α ε : Type} : Option (Slot α ε) → Bool
  | some (.valuer _) => true
  | _ => false

/-- A `Valuer` returning the static value `7`. -/
def fC1 : Valuer Nat Unit := fun _ => Except.ok (Slot.static 7)

/-- A sequence with one static key and one `Valuer` value slot (`fC1`). -/
def kvC1 : List (Slot Nat Unit) := [Slot.static 0, Slot.valuer fC1]

/-- A `Valuer` returning the static value `5`. -/
def fC2 : Valuer Nat Unit := fun _ => Except.ok (Slot.static 5)

/-- A sequence with a `Valuer` in its only odd slot. -/
def kvC2 : List (Slot Nat Unit) := [Slot.static 0, Slot.valuer fC2]

/-- A `Valuer` producing the static value `7`. -/
def gC3 : Valuer Nat Unit := fun _ => Except.ok (Slot.static 7)

/-- A `Valuer` that returns another `Valuer` (namely `gC3`). -/
def fC3 : Valuer Nat Unit := fun _ => Except.ok (Slot.valuer gC3)

/-- A sequence whose odd slot holds `fC3`, a `Valuer` returning a
`Valuer`. -/
def kvC3 : List (Slot Nat Unit) := [Slot.static 0, Slot.valuer fC3]

/-- A `Valuer` returning the static value `3`. -/
def fC3A : Valuer Nat Unit := fun _ => Except.ok (Slot.static 3)

/-- A sequence whose only `Valuer` returns a non-`Valuer` value. -/
def kvC3A : List (Slot Nat Unit) := [Slot.static 0, Slot.valuer fC3A]

/-- A `Valuer` returning the static value `10`. -/
def fC4a : Valuer Nat Unit := fun _ => Except.ok (Slot.static 10)

/-- A `Valuer` returning the static value `20`. -/
def fC4b : Valuer Nat Unit := fun _ => Except.ok (Slot.static 20)

/-- The spec ordering example `[k0, f0, k1, v1, k2, f1]`: `f0`, `f1`
deferred (`fC4a`, `fC4b`), `v1` static. -/
def kvC4 : List (Slot Nat Unit) :=
  [Slot.static 0, Slot.valuer fC4a,
   Slot.static 1, Slot.static 99,
   Slot.static 2, Slot.valuer fC4b]

/-- A `Valuer` returning the static value `4`. -/
def fC5a : Valuer Nat Unit := fun _ => Except.ok (Slot.static 4)

/-- A `Valuer` that panics when invoked. -/
def fC5b : Valuer Nat Unit := fun _ => Except.error ()

/-- A `Valuer` returning the static value `9`. -/
def fC5c : Valuer Nat Unit := fun _ => Except.ok (Slot.static 9)

/-- A sequence whose `Valuer` at index 3 panics, with a succeeding
`Valuer` before it (index 1) and another `Valuer` after it (index 5). -/
def kvC5 : List (Slot Nat Unit) :=
  [Slot.static 0, Slot.valuer fC5a,
   Slot.static 1, Slot.valuer fC5b,
   Slot.static 2, Slot.valuer fC5c]

/-- A `Valuer` that would panic if invoked. -/
def fC8a : Valuer Nat Unit := fun _ => Except.error ()

/-- A sequence whose only `Valuer` would panic if invoked. -/
def kvC8a : List (Slot Nat Unit) := [Slot.static 0, Slot.valuer fC8a]

/-- A `Valuer` (over different value and panic types) returning a static
value. -/
def fC8b : Valuer String String := fun _ => Except.ok (Slot.static "v")

/-- A sequence with the same shape as `kvC8a` (a `Valuer` in the odd
slot) but different payloads and different value types. -/
def kvC8b : List (Slot String String) := [Slot.static "k", Slot.valuer fC8b]

/-- A concrete `TimeFormat` value. -/
def tfC6 : TimeFormat := ⟨⟨fun l => "2026-" ++ l⟩, "layout"⟩

/-- Two-step list induction matching the pairwise recursion above. -/
theorem twoStepInduction {X : Type} {motive : List X → Prop}
    (hnil : motive []) (hone : ∀ k, motive [k])
    (hcons : ∀ k v rest, motive rest → motive (k :: v :: rest)) :
    ∀ l, motive l
  | [] => hnil
  | [k] => hone k
  | k :: v :: rest => hcons k v rest (twoStepInduction hnil hone hcons rest)

/-! ### Helper lemmas about `bindValues` and `containsValuer` -/

theorem length_bindValues {α ε : Type} (kv : List (Slot α ε)) :
    (bindValues kv).keyvals.length = kv.length := by
  induction kv using twoStepInduction with
  | hnil => rfl
  | hone k => rfl
  | hcons k v rest ih =>
    cases v with
    | static a => simp [bindValues, ih]
    | valuer f =>
      cases hf : f () with
      | error e => simp [bindValues, hf]
      | ok w => simp [bindValues, hf, ih]

theorem bindValues_untouched {α ε : Type} (kv : List (Slot α ε)) (j : Nat)
    (hj : j % 2 = 0 ∨ ∀ f, kv[j]? ≠ some (Slot.valuer f)) :
    (bindValues kv).keyvals[j]? = kv[j]? := by
  induction kv using twoStepInduction generalizing j with
  | hnil => rfl
  | hone k => rfl
  | hcons k v rest ih =>
    cases v with
    | static a =>
      rcases j with _ | _ | m
      · rfl
      · simp [bindValues]
      · have : (bindValues rest).keyvals[m]? = rest[m]? := by
          apply ih
          rcases hj with hj | hj
          · exact Or.inl (by omega)
          · exact Or.inr fun f h => hj f (by simpa using h)
        simpa [bindValues] using this
    | valuer f =>
      cases hf : f () with
      | error e => simp [bindValues, hf]
      | ok w =>
        rcases j with _ | _ | m
        · simp [bindValues, hf]
        · rcases hj with hj | hj
          · omega
          · exact absurd (by simp) (hj f)
        · have : (bindValues rest).keyvals[m]? = rest[m]? := by
            apply ih
            rcases hj with hj | hj
            · exact Or.inl (by omega)
            · exact Or.inr fun g h => hj g (by simpa using h)
          simpa [bindValues, hf] using this

theorem bindValues_ok {α ε : Type} (kv : List (Slot α ε))
    (H : ∀ j f, j % 2 = 1 → kv[j]? = some (Slot.valuer f) → ∃ w, f () = Except.ok w) :
    (bindValues kv).err = none ∧
    ∀ j f, j % 2 = 1 → kv[j]? = some (Slot.valuer f) →
      ∃ w, f () = Except.ok w ∧ (bindValues kv).keyvals[j]? = some w := by
  induction kv using twoStepInduction with
  | hnil => exact ⟨rfl, by intro j f _ h; simp at h⟩
  | hone k =>
    refine ⟨rfl, ?_⟩
    intro j f hj h
    rcases j with _ | m
    · omega
    · simp at h
  | hcons k v rest ih =>
    have Hrest : ∀ j f, j % 2 = 1 → rest[j]? = some (Slot.valuer f) →
        ∃ w, f () = Except.ok w := by
      intro j f hj h
      exact H (j + 2) f (by omega) (by simpa using h)
    cases v with
    | static a =>
      obtain ⟨ih1, ih2⟩ := ih Hrest
      refine ⟨by simpa [bindValues] using ih1, ?_⟩
      intro j f hj h
      rcases j with _ | _ | m
      · omega
      · simp at h
      · obtain ⟨w, hw, hget⟩ := ih2 m f (by omega) (by simpa using h)
        exact ⟨w, hw, by simpa [bindValues] using hget⟩
    | valuer f =>
      obtain ⟨w, hw⟩ := H 1 f rfl (by simp)
      obtain ⟨ih1, ih2⟩ := ih Hrest
      refine ⟨by simpa [bindValues, hw] using ih1, ?_⟩
      intro j g hj h
      rcases j with _ | _ | m
      · omega
      · have hgf : f = g := by simpa [Slot.valuer.injEq] using h
        subst hgf
        exact ⟨w, hw, by simp [bindValues, hw]⟩
      · obtain ⟨u, hu, hget⟩ := ih2 m g (by omega) (by simpa using h)
        exact ⟨u, hu, by simpa [bindValues, hw] using hget⟩

theorem bindValues_noop {α ε : Type} (kv : List (Slot α ε))
    (h : ∀ j f, j % 2 = 1 → kv[j]? ≠ some (Slot.valuer f)) :
    bindValues kv = ⟨kv, [], none⟩ := by
  induction kv using twoStepInduction with
  | hnil => rfl
  | hone k => rfl
  | hcons k v rest ih =>
    cases v with
    | static a =>
      have := ih fun j f hj hf => h (j + 2) f (by omega) (by simpa using hf)
      simp [bindValues, this]
    | valuer f => exact absurd (by simp) (h 1 f rfl)

theorem containsValuer_iff {α ε : Type} (kv : List (Slot α ε)) :
    containsValuer kv = true ↔ ∃ j f, j % 2 = 1 ∧ kv[j]? = some (Slot.valuer f) := by
  induction kv using twoStepInduction with
  | hnil => simp [containsValuer]
  | hone k =>
    simp only [containsValuer]
    constructor
    · intro h; cases h
    · rintro ⟨j, f, hj, h⟩
      rcases j with _ | m
      · omega
      · simp at h
  | hcons k v rest ih =>
    cases v with
    | static a =>
      simp only [containsValuer]
      rw [ih]
      constructor
      · rintro ⟨j, f, hj, h⟩
        exact ⟨j + 2, f, by omega, by simpa using h⟩
      · rintro ⟨j, f, hj, h⟩
        rcases j with _ | _ | m
        · omega
        · simp at h
        · exact ⟨m, f, by omega, by simpa using h⟩
    | valuer f =>
      simp only [containsValuer, true_iff]
      exact ⟨1, f, rfl, by simp⟩

theorem bindValues_trace_mem {α ε : Type} (kv : List (Slot α ε)) :
    ∀ j ∈ (bindValues kv).trace, j % 2 = 1 ∧ ∃ f, kv[j]? = some (Slot.valuer f) := by
  induction kv using twoStepInduction with
  | hnil => intro j hj; simp [bindValues] at hj
  | hone k => intro j hj; simp [bindValues] at hj
  | hcons k v rest ih =>
    cases v with
    | static a =>
      intro j hj
      simp only [bindValues, List.mem_map] at hj
      obtain ⟨m, hm, rfl⟩ := hj
      obtain ⟨hodd, f, hf⟩ := ih m hm
      exact ⟨by omega, f, by simpa using hf⟩
    | valuer f =>
      cases hf : f () with
      | error e =>
        intro j hj
        simp only [bindValues, hf] at hj
        simp only [List.mem_singleton] at hj
        subst hj
        exact ⟨rfl, f, by simp⟩
      | ok w =>
        intro j hj
        simp only [bindValues, hf, List.mem_cons, List.mem_map] at hj
        rcases hj with rfl | ⟨m, hm, rfl⟩
        · exact ⟨rfl, f, by simp⟩
        · obtain ⟨hodd, g, hg⟩ := ih m hm
          exact ⟨by omega, g, by simpa using hg⟩

theorem bindValues_trace_sorted {α ε : Type} (kv : List (Slot α ε)) :
    (bindValues kv).trace.Pairwise (· < ·) := by
  induction kv using twoStepInduction with
  | hnil => simp [bindValues]
  | hone k => simp [bindValues]
  | hcons k v rest ih =>
    cases v with
    | static a =>
      simp only [bindValues]
      exact List.Pairwise.map _ (fun hxy => by omega) ih
    | valuer f =>
      cases hf : f () with
      | error e => simp [bindValues, hf]
      | ok w =>
        simp only [bindValues, hf, List.pairwise_cons]
        refine ⟨?_, List.Pairwise.map _ (fun hxy => by omega) ih⟩
        intro x hx
        simp only [List.mem_map] at hx
        obtain ⟨m, _, rfl⟩ := hx
        omega

theorem bindValues_fail {α ε : Type} (kv : List (Slot α ε)) (j : Nat)
    (f : Valuer α ε) (e : ε)
    (hj : j % 2 = 1) (hslot : kv[j]? = some (Slot.valuer f)) (hfail : f () = Except.error e)
    (hbefore : ∀ m g, m % 2 = 1 → m < j → kv[m]? = some (Slot.valuer g) →
      ∃ w, g () = Except.ok w) :
    (bindValues kv).err = some e ∧
    (∀ m, j ≤ m → (bindValues kv).keyvals[m]? = kv[m]?) ∧
    (∀ m g, m % 2 = 1 → m < j → kv[m]? = some (Slot.valuer g) →
      ∃ w, g () = Except.ok w ∧ (bindValues kv).keyvals[m]? = some w) := by
  induction kv using twoStepInduction generalizing j with
  | hnil => simp at hslot
  | hone k =>
    rcases j with _ | m
    · omega
    · simp at hslot
  | hcons k v rest ih =>
    rcases j with _ | _ | jj
    · omega
    · have hv : v = Slot.valuer f := by simpa using hslot
      subst hv
      refine ⟨by simp [bindValues, hfail], ?_, ?_⟩
      · intro m _
        simp [bindValues, hfail]
      · intro m g _ hm _
        omega
    · cases v with
      | static a =>
        obtain ⟨c1, c2, c3⟩ := ih jj (by omega) (by simpa using hslot)
          (fun m g hm hmj hg =>
            hbefore (m + 2) g (by omega) (by omega) (by simpa using hg))
        refine ⟨by simpa [bindValues] using c1, ?_, ?_⟩
        · intro m hm
          rcases m with _ | _ | mm
          · omega
          · simp [bindValues]
          · simpa [bindValues] using c2 mm (by omega)
        · intro m g hm hmj hg
          rcases m with _ | _ | mm
          · omega
          · simp at hg
          · obtain ⟨w, hw, hget⟩ := c3 mm g (by omega) (by omega) (by simpa using hg)
            exact ⟨w, hw, by simpa [bindValues] using hget⟩
      | valuer g0 =>
        obtain ⟨w0, hw0⟩ := hbefore 1 g0 rfl (by omega) (by simp)
        obtain ⟨c1, c2, c3⟩ := ih jj (by omega) (by simpa using hslot)
          (fun m g hm hmj hg =>
            hbefore (m + 2) g (by omega) (by omega) (by simpa using hg))
        refine ⟨by simpa [bindValues, hw0] using c1, ?_, ?_⟩
        · intro m hm
          rcases m with _ | _ | mm
          · omega
          · omega
          · simpa [bindValues, hw0] using c2 mm (by omega)
        · intro m g hm hmj hg
          rcases m with _ | _ | mm
          · omega
          · have hgg : g0 = g := by simpa [Slot.valuer.injEq] using hg
            subst hgg
            exact ⟨w0, hw0, by simp [bindValues, hw0]⟩
          · obtain ⟨w, hw, hget⟩ := c3 mm g (by omega) (by omega) (by simpa using hg)
            exact ⟨w, hw, by simpa [bindValues, hw0] using hget⟩


/-! ### Claim theorems -/

/-- C1: `bindValues` replaces exactly the odd-index slots holding a
`Valuer` with the result of invoking that `Valuer` with no arguments
(the hypothesis states that every invoked `Valuer` returns normally, the
reading under which "the result" of each invocation exists); every
even-index slot and every slot not holding a `Valuer` is unchanged; the
length is unchanged; and on a sequence with no `Valuer` in any odd slot
(including the empty sequence) `bindValues` is a no-op. -/
theorem c1_bindValues_resolves_odd_valuers {α ε : Type} (kv : List (Slot α ε))
    (H : ∀ j f, j % 2 = 1 → kv[j]? = some (Slot.valuer f) →
      ∃ w, f () = Except.ok w) :
    (bindValues kv).keyvals.length = kv.length ∧
    (bindValues kv).err = none ∧
    (∀ j f, j % 2 = 1 → kv[j]? = some (Slot.valuer f) →
      ∃ w, f () = Except.ok w ∧ (bindValues kv).keyvals[j]? = some w) ∧
    (∀ j, j % 2 = 0 → (bindValues kv).keyvals[j]? = kv[j]?) ∧
    (∀ j : Nat, (∀ f, kv[j]? ≠ some (Slot.valuer f)) →
      (bindValues kv).keyvals[j]? = kv[j]?) ∧
    ((∀ j f, j % 2 = 1 → kv[j]? ≠ some (Slot.valuer f)) →
      bindValues kv = ⟨kv, [], none⟩) := by
  obtain ⟨h1, h2⟩ := bindValues_ok kv H
  exact ⟨length_bindValues kv, h1, h2,
    fun j hj => bindValues_untouched kv j (Or.inl hj),
    fun j hf => bindValues_untouched kv j (Or.inr hf),
    fun hno => bindValues_noop kv hno⟩

/-- C1 witness: on the concrete sequence `kvC1` the hypothesis holds and
the conclusions evaluate. -/
theorem c1_witness :
    (bindValues kvC1).keyvals.length = kvC1.length ∧
    (bindValues kvC1).err = none ∧
    (bindValues kvC1).keyvals[0]? = kvC1[0]? := by
  have H : ∀ j f, j % 2 = 1 → kvC1[j]? = some (Slot.valuer f) →
      ∃ w, f () = Except.ok w := by
    intro j f hj hf
    rcases j with _ | _ | m
    · omega
    · simp only [kvC1, List.getElem?_cons_succ, List.getElem?_cons_zero,
        Option.some.injEq, Slot.valuer.injEq] at hf
      subst hf
      exact ⟨Slot.static 7, rfl⟩
    · simp [kvC1] at hf
  have h := c1_bindValues_resolves_odd_valuers kvC1 H
  exact ⟨h.1, h.2.1, h.2.2.2.1 0 rfl⟩

/-- C2: `containsValuer` returns true iff at least one odd-index slot
holds a `Valuer` (so false on an all-static or empty sequence); being a
pure function of the sequence, it cannot mutate it. -/
theorem c2_containsValuer_iff_odd_valuer {α ε : Type} (kv : List (Slot α ε)) :
    containsValuer kv = true ↔
      ∃ j f, j % 2 = 1 ∧ kv[j]? = some (Slot.valuer f) :=
  containsValuer_iff kv

/-- C2 witness: the equivalence instantiated at a concrete sequence with
a `Valuer` in its odd slot. -/
theorem c2_witness : containsValuer kvC2 = true :=
  (c2_containsValuer_iff_odd_valuer kvC2).mpr ⟨1, fC2, rfl, by simp [kvC2]⟩

/-- C3 counterexample: on `kvC3`, whose `Valuer` returns another `Valuer`
(`gC3`) when invoked, after one call to `bindValues` the odd slot still
holds a `Valuer`, and a second call changes that slot (it is not a
no-op), contradicting the claim. -/
theorem c3_counterexample :
    isValuerOpt ((bindValues kvC3).keyvals[1]?) = true ∧
    (bindValues (bindValues kvC3).keyvals).keyvals[1]? ≠
      (bindValues kvC3).keyvals[1]? := by
  constructor
  · rfl
  · intro h
    have h2 : (bindValues (bindValues kvC3).keyvals).keyvals[1]? =
        some (Slot.static (ε := Unit) 7) := rfl
    rw [h] at h2
    have h3 : (bindValues kvC3).keyvals[1]? = some (Slot.valuer gC3) := rfl
    rw [h3] at h2
    simp at h2

/-- C3 amended: after one call to `bindValues` an odd slot can still hold
a `Valuer` exactly when its original `Valuer` produced one; when every
`Valuer` in an odd slot returns (normally) a non-`Valuer` value -
single-level resolution - no odd slot of the result holds a `Valuer` and
a second call to `bindValues` is a no-op. -/
theorem c3_amended_single_level {α ε : Type} (kv : List (Slot α ε))
    (H : ∀ j f, j % 2 = 1 → kv[j]? = some (Slot.valuer f) →
      ∃ w, f () = Except.ok w ∧ isValuerSlot w = false) :
    (∀ j s, j % 2 = 1 → (bindValues kv).keyvals[j]? = some s →
      isValuerSlot s = false) ∧
    bindValues (bindValues kv).keyvals = ⟨(bindValues kv).keyvals, [], none⟩ := by
  have H' : ∀ j f, j % 2 = 1 → kv[j]? = some (Slot.valuer f) →
      ∃ w, f () = Except.ok w := fun j f hj hf =>
    (H j f hj hf).imp fun w hw => hw.1
  obtain ⟨-, hres⟩ := bindValues_ok kv H'
  have hnone : ∀ j s, j % 2 = 1 → (bindValues kv).keyvals[j]? = some s →
      isValuerSlot s = false := by
    intro j s hj hs
    cases hkv : kv[j]? with
    | none =>
      have hlen := length_bindValues kv
      have hj2 : kv.length ≤ j := List.getElem?_eq_none_iff.mp hkv
      have : (bindValues kv).keyvals[j]? = none :=
        List.getElem?_eq_none_iff.mpr (by omega)
      rw [this] at hs
      cases hs
    | some s0 =>
      cases s0 with
      | static a =>
        have hun : (bindValues kv).keyvals[j]? = kv[j]? := by
          apply bindValues_untouched
          refine Or.inr fun f hf => ?_
          rw [hkv] at hf
          simp at hf
        rw [hun, hkv] at hs
        obtain rfl : Slot.static a = s := Option.some.inj hs
        rfl
      | valuer f =>
        obtain ⟨w, hw, hwv⟩ := H j f hj hkv
        obtain ⟨w', hw', hget⟩ := hres j f hj hkv
        have hww : w = w' := by
          rw [hw] at hw'
          exact Except.ok.inj hw'
        rw [hget] at hs
        obtain rfl : w' = s := Option.some.inj hs
        rw [← hww]
        exact hwv
  refine ⟨hnone, ?_⟩
  apply bindValues_noop
  intro j f hj hcontra
  have := hnone j (Slot.valuer f) hj hcontra
  simp [isValuerSlot] at this

/-- C3 witness: on `kvC3A`, whose only `Valuer` returns a static value,
the amended claim's hypothesis holds and a second call is a no-op. -/
theorem c3_witness :
    isValuerOpt ((bindValues kvC3A).keyvals[1]?) = false ∧
    bindValues (bindValues kvC3A).keyvals =
      ⟨(bindValues kvC3A).keyvals, [], none⟩ := by
  have h := c3_amended_single_level kvC3A (by
    intro j f hj hf
    rcases j with _ | _ | m
    · omega
    · simp only [kvC3A, List.getElem?_cons_succ, List.getElem?_cons_zero,
        Option.some.injEq, Slot.valuer.injEq] at hf
      subst hf
      exact ⟨Slot.static 3, rfl, rfl⟩
    · simp [kvC3A] at hf)
  exact ⟨rfl, h.2⟩

/-- C4: the trace of `Valuer` invocations performed by `bindValues` is
strictly ascending in index, each invoked index is an odd index that held
a `Valuer`, key (even) slots are untouched; in particular on the spec's
example `[k0, f0, k1, v1, k2, f1]` the invocation order is `f0` (index 1)
then `f1` (index 5) and the keys are unchanged. -/
theorem c4_ascending_invocation_order {α ε : Type} (kv : List (Slot α ε)) :
    (bindValues kv).trace.Pairwise (· < ·) ∧
    (∀ j, j ∈ (bindValues kv).trace →
      j % 2 = 1 ∧ ∃ f, kv[j]? = some (Slot.valuer f)) ∧
    (∀ j, j % 2 = 0 → (bindValues kv).keyvals[j]? = kv[j]?) ∧
    (bindValues kvC4).trace = [1, 5] ∧
    (bindValues kvC4).keyvals =
      [Slot.static 0, Slot.static 10, Slot.static 1, Slot.static 99,
       Slot.static 2, Slot.static 20] :=
  ⟨bindValues_trace_sorted kv, bindValues_trace_mem kv,
   fun j hj => bindValues_untouched kv j (Or.inl hj), rfl, rfl⟩

/-- C4 witness: index 1 of the example's trace is an odd index holding a
`Valuer`. -/
theorem c4_witness : 1 % 2 = 1 ∧ ∃ f, kvC4[1]? = some (Slot.valuer f) := by
  have hmem : 1 ∈ (bindValues kvC4).trace := by
    have ht : (bindValues kvC4).trace = [1, 5] := rfl
    rw [ht]
    simp
  exact (c4_ascending_invocation_order (α := Nat) (ε := Unit) kvC4).2.1 1 hmem

/-- C5: if the `Valuer` at odd index `j` panics (and every `Valuer` at an
odd index before `j` returns normally, so that `j` is the failing slot),
`bindValues` propagates that same panic unwrapped, every slot at or after
`j` is unchanged, and every odd `Valuer` slot before `j` has already been
resolved to its invocation result (no rollback). -/
theorem c5_failure_propagation {α ε : Type} (kv : List (Slot α ε)) (j : Nat)
    (f : Valuer α ε) (e : ε) (hj : j % 2 = 1)
    (hslot : kv[j]? = some (Slot.valuer f)) (hfail : f () = Except.error e)
    (hbefore : ∀ m g, m % 2 = 1 → m < j → kv[m]? = some (Slot.valuer g) →
      ∃ w, g () = Except.ok w) :
    (bindValues kv).err = some e ∧
    (∀ m, j ≤ m → (bindValues kv).keyvals[m]? = kv[m]?) ∧
    (∀ m g, m % 2 = 1 → m < j → kv[m]? = some (Slot.valuer g) →
      ∃ w, g () = Except.ok w ∧ (bindValues kv).keyvals[m]? = some w) :=
  bindValues_fail kv j f e hj hslot hfail hbefore

/-- C5 witness: on `kvC5` (failing `Valuer` at index 3) the panic is
propagated, the failing slot and the slot after it are unchanged. -/
theorem c5_witness :
    (bindValues kvC5).err = some () ∧
    (bindValues kvC5).keyvals[3]? = kvC5[3]? ∧
    (bindValues kvC5).keyvals[5]? = kvC5[5]? := by
  have h := c5_failure_propagation kvC5 3 fC5b () rfl (by simp [kvC5]) rfl (by
    intro m g hm hmj hg
    rcases m with _ | _ | _ | mm
    · omega
    · simp only [kvC5, List.getElem?_cons_succ, List.getElem?_cons_zero,
        Option.some.injEq, Slot.valuer.injEq] at hg
      subst hg
      exact ⟨Slot.static 4, rfl⟩
    · omega
    · omega)
  exact ⟨h.1, h.2.1 3 (by omega), h.2.1 5 (by omega)⟩

/-- An optional slot holds a `Valuer` iff it is `some (Slot.valuer f)`. -/
theorem isValuerOpt_iff {α ε : Type} (o : Option (Slot α ε)) :
    isValuerOpt o = true ↔ ∃ f, o = some (Slot.valuer f) := by
  cases o with
  | none => simp [isValuerOpt]
  | some s =>
    cases s with
    | static a => simp [isValuerOpt]
    | valuer f => simp [isValuerOpt]

/-- C8: `containsValuer` never invokes a `Valuer`; its result depends only
on which odd-index slots hold a `Valuer`: two sequences (even over
different value and panic types) agreeing on `Valuer`-ness at every odd
index yield the same result, independent of what any `Valuer` would
return or whether it would panic. -/
theorem c8_containsValuer_shape_only {α₁ ε₁ α₂ ε₂ : Type}
    (kv₁ : List (Slot α₁ ε₁)) (kv₂ : List (Slot α₂ ε₂))
    (hshape : ∀ j, j % 2 = 1 → isValuerOpt kv₁[j]? = isValuerOpt kv₂[j]?) :
    containsValuer kv₁ = containsValuer kv₂ := by
  have key : (∃ j f, j % 2 = 1 ∧ kv₁[j]? = some (Slot.valuer f)) ↔
      (∃ j f, j % 2 = 1 ∧ kv₂[j]? = some (Slot.valuer f)) := by
    constructor
    · rintro ⟨j, f, hj, hf⟩
      have hv : isValuerOpt kv₂[j]? = true := by
        rw [← hshape j hj]
        exact (isValuerOpt_iff _).mpr ⟨f, hf⟩
      obtain ⟨g, hg⟩ := (isValuerOpt_iff _).mp hv
      exact ⟨j, g, hj, hg⟩
    · rintro ⟨j, f, hj, hf⟩
      have hv : isValuerOpt kv₁[j]? = true := by
        rw [hshape j hj]
        exact (isValuerOpt_iff _).mpr ⟨f, hf⟩
      obtain ⟨g, hg⟩ := (isValuerOpt_iff _).mp hv
      exact ⟨j, g, hj, hg⟩
    
  have e1 : (containsValuer kv₁ = true) ↔ (containsValuer kv₂ = true) :=
    (containsValuer_iff kv₁).trans (key.trans (containsValuer_iff kv₂).symm)
  rcases Bool.eq_false_or_eq_true (containsValuer kv₁) with h | h <;>
    rcases Bool.eq_false_or_eq_true (containsValuer kv₂) with h' | h' <;>
    simp_all

/-- C8 witness: `kvC8a` (whose `Valuer` would panic if invoked) and
`kvC8b` (different payloads and types, same shape) get the same result. -/
theorem c8_witness : containsValuer kvC8a = containsValuer kvC8b := by
  apply c8_containsValuer_shape_only
  intro j hj
  rcases j with _ | _ | m
  · omega
  · rfl
  · simp [kvC8a, kvC8b, isValuerOpt]

/-- C6: `MarshalText` produces exactly the characters of the `String()`
form, for every captured instant and layout; and the rendering is
deterministic: any `TimeFormat` with the same captured instant and the
same layout renders to identical text. -/
theorem c6_marshalText_matches_string (tf : TimeFormat) :
    (TimeFormat.MarshalText tf).1 = (TimeFormat.string tf).data ∧
    ∀ tf' : TimeFormat, tf'.Time = tf.Time → tf'.Layout = tf.Layout →
      TimeFormat.string tf' = TimeFormat.string tf := by
  constructor
  · simp [TimeFormat.MarshalText, TimeFormat.string, Time.AppendFormat,
      Time.Format]
  · intro tf' h1 h2
    simp [TimeFormat.string, Time.Format, h1, h2]

/-- C6 witness: the equality of bytes and the determinism of rendering at
a concrete `TimeFormat`. -/
theorem c6_witness :
    (TimeFormat.MarshalText tfC6).1 = (TimeFormat.string tfC6).data ∧
    TimeFormat.string tfC6 = TimeFormat.string tfC6 :=
  ⟨(c6_marshalText_matches_string tfC6).1,
   (c6_marshalText_matches_string tfC6).2 tfC6 rfl rfl⟩

/-- C7: for the repository built by `NewVoyageRepository`, `Find` returns
the unique preloaded record whose number matches, with a nil error, and
returns `(nil, ErrUnknown)` for every other number - never a different
record and never a different error. -/
theorem c7_find_preloaded (n : Number) :
    (∀ v, v ∈ preloadedVoyages → v.number = n →
      voyageRepository.Find NewVoyageRepository n = (some v, none)) ∧
    ((∀ v, v ∈ preloadedVoyages → v.number ≠ n) →
      voyageRepository.Find NewVoyageRepository n =
        (none, some VoyageError.ErrUnknown)) := by
  constructor
  · intro v hv hn
    fin_cases hv <;> (subst hn; decide)
  · intro h
    have h1 : ¬(n = V100.number) :=
      fun e => h V100 (by simp [preloadedVoyages]) e.symm
    have h2 : ¬(n = V300.number) :=
      fun e => h V300 (by simp [preloadedVoyages]) e.symm
    have h3 : ¬(n = V400.number) :=
      fun e => h V400 (by simp [preloadedVoyages]) e.symm
    have h4 : ¬(n = V0100S.number) :=
      fun e => h V0100S (by simp [preloadedVoyages]) e.symm
    have h5 : ¬(n = V0200T.number) :=
      fun e => h V0200T (by simp [preloadedVoyages]) e.symm
    have h6 : ¬(n = V0300A.number) :=
      fun e => h V0300A (by simp [preloadedVoyages]) e.symm
    have h7 : ¬(n = V0301S.number) :=
      fun e => h V0301S (by simp [preloadedVoyages]) e.symm
    have h8 : ¬(n = V0400S.number) :=
      fun e => h V0400S (by simp [preloadedVoyages]) e.symm
    simp [voyageRepository.Find, NewVoyageRepository, mapInsert,
      h1, h2, h3, h4, h5, h6, h7, h8]

/-- C7 witness: a preloaded number returns its record; an absent number
returns the sentinel error. -/
theorem c7_witness :
    voyageRepository.Find NewVoyageRepository V100.number = (some V100, none) ∧
    voyageRepository.Find NewVoyageRepository "ZZZ" =
      (none, some VoyageError.ErrUnknown) := by
  constructor
  · exact (c7_find_preloaded V100.number).1 V100 (by simp [preloadedVoyages]) rfl
  · exact (c7_find_preloaded "ZZZ").2 (by decide)

/-- C9: `Find` returns a record exactly when it returns a nil error: for
every repository state and number, the result is either the stored record
with a nil error, or `(nil, ErrUnknown)` - never both a record and an
error, never neither. -/
theorem c9_find_dichotomy (r : voyageRepository) (n : Number) :
    (∃ v, r.voyages n = some v ∧
      voyageRepository.Find r n = (some v, none)) ∨
    (r.voyages n = none ∧
      voyageRepository.Find r n = (none, some VoyageError.ErrUnknown)) := by
  cases h : r.voyages n with
  | some v => exact Or.inl ⟨v, rfl, by simp [voyageRepository.Find, h]⟩
  | none => exact Or.inr ⟨rfl, by simp [voyageRepository.Find, h]⟩

/-- C10: `MarshalText` never fails: its error component is nil for every
`TimeFormat` value. -/
theorem c10_marshalText_never_fails (tf : TimeFormat) :
    (TimeFormat.MarshalText tf).2 = none := rfl
